import Mathlib

/-!
Verification development for the pitch2play repository.

The album/artist extraction heuristic, the text normalizer, the MIME
encoded-word decoder, the cross-email month aggregator and the playlist
reorder request builder are embedded shallowly over `List Char`.  DOM
traversal (cheerio selectors) and the Node `Buffer` base64 codec are host
services; they enter the model as explicit data (per-strategy candidate
lists) respectively as an injected fallible decoding function, while every
piece of control flow, string processing and arithmetic that the repository
itself implements is translated directly from the source.
-/

set_option maxRecDepth 20000

namespace Pitch2Play

/-- Strings are modelled as explicit character lists so that every string
operation of the source can be embedded as a structurally transparent
function. -/
abbrev Str := List Char

/-! ## JavaScript character classes

`\s` in a JavaScript regular expression (and `String.prototype.trim`)
matches exactly the WhiteSpace and LineTerminator code points below. -/

/-- Character class of JavaScript `\s` (whitespace and line terminators). -/
def isJsWs (c : Char) : Bool :=
  let n := c.toNat
  n == 0x09 || n == 0x0a || n == 0x0b || n == 0x0c || n == 0x0d || n == 0x20 ||
  n == 0xa0 || n == 0x1680 || (decide (0x2000 ≤ n) && decide (n ≤ 0x200a)) ||
  n == 0x2028 || n == 0x2029 || n == 0x202f || n == 0x205f || n == 0x3000 ||
  n == 0xfeff

/-- The characters on which the plain-text fallback splits the body:
the alternatives of the split pattern `\n|\r|\r\n| | ` (the
two-character alternative `\r\n` is subsumed by `\n` and `\r`). -/
def isLineSep (c : Char) : Bool :=
  let n := c.toNat
  n == 0x0a || n == 0x0d || n == 0x2028 || n == 0x2029

/-- ASCII lowercasing, the character-wise model of `toLowerCase()`. -/
def lowerChar (c : Char) : Char :=
  if 65 ≤ c.toNat ∧ c.toNat ≤ 90 then Char.ofNat (c.toNat + 32) else c

/-- Model of `String.prototype.toLowerCase` (applied character-wise). -/
def lowerStr (s : Str) : Str := s.map lowerChar

/-- Removal of a maximal whitespace suffix, the right half of `trim()`. -/
def dropTrailingWs : Str → Str
  | [] => []
  | c :: rest =>
    let r := dropTrailingWs rest
    if r.isEmpty && isJsWs c then [] else c :: r

/-- Model of `String.prototype.trim`. -/
def trimL (s : Str) : Str := dropTrailingWs (s.dropWhile isJsWs)

/-! ## Text Normalizer (`stripHtml`, src/src/utils/text.mjs and the
identical copy in pitchfork_spotify_playlist.mjs) -/

/-- Case-insensitive prefix test used to model the `i` flag of the
style/script block patterns. -/
def isCIPrefix (pat s : Str) : Bool :=
  lowerStr (s.take pat.length) == lowerStr pat

/-- First case-insensitive occurrence of `pat`; returns the suffix after
the occurrence.  Models the search for the closing delimiter of a lazy
`[\\s\\S]*?` block match. -/
def findCI (pat : Str) : Str → Option Str
  | [] => none
  | c :: rest =>
    if isCIPrefix pat (c :: rest) then some ((c :: rest).drop pat.length)
    else findCI pat rest

/-- Global removal of lazily matched case-insensitive blocks
`openPat ... closePat` (the `<style[\\s\\S]*?<\\/style>` and
`<script[\\s\\S]*?<\\/script>` replaces).  The scan advances at least one
character per step, so the fuel supplied by the wrappers (the input
length) is never exhausted. -/
def removeBlocksF (openPat closePat : Str) : Nat → Str → Str
  | 0, s => s
  | _, [] => []
  | fuel + 1, c :: rest =>
    if isCIPrefix openPat (c :: rest) then
      match findCI closePat ((c :: rest).drop openPat.length) with
      | some after => removeBlocksF openPat closePat fuel after
      | none => c :: removeBlocksF openPat closePat fuel rest
    else c :: removeBlocksF openPat closePat fuel rest

/-- The `text.replace(/<style[\\s\\S]*?<\\/style>/gi, '')` step. -/
def removeStyleBlocks (s : Str) : Str :=
  removeBlocksF "<style".toList "</style>".toList s.length s

/-- The `text.replace(/<script[\\s\\S]*?<\\/script>/gi, '')` step. -/
def removeScriptBlocks (s : Str) : Str :=
  removeBlocksF "<script".toList "</script>".toList s.length s

/-- Splits at the first `>`; `some` only when a `>` exists.  Helper for
the tag pattern `<[^>]+>`. -/
def splitAtGt (l : Str) : Option (Str × Str) :=
  let before := l.takeWhile (fun c => c != '>')
  if before.length < l.length then some (before, l.drop (before.length + 1))
  else none

/-- The `text.replace(/<[^>]+>/g, ' ')` step: every `<`, at least one
non-`>` character, and a `>` collapse to a single space. -/
def removeTagsF : Nat → Str → Str
  | 0, s => s
  | _, [] => []
  | fuel + 1, c :: rest =>
    if c = '<' then
      match splitAtGt rest with
      | some (before, after) =>
        if before.isEmpty then c :: removeTagsF fuel rest
        else ' ' :: removeTagsF fuel after
      | none => c :: removeTagsF fuel rest
    else c :: removeTagsF fuel rest

/-- Wrapper supplying sufficient fuel. -/
def removeTags (s : Str) : Str := removeTagsF s.length s

/-- Global replacement of a literal pattern, the model of one chained
`replace(/pat/g, repl)` with a fixed pattern (no rescanning of the
replacement). -/
def replaceAllF (pat repl : Str) : Nat → Str → Str
  | 0, s => s
  | _, [] => []
  | fuel + 1, c :: rest =>
    if pat.isPrefixOf (c :: rest) then
      repl ++ replaceAllF pat repl fuel ((c :: rest).drop pat.length)
    else c :: replaceAllF pat repl fuel rest

/-- Wrapper supplying sufficient fuel (patterns are nonempty literals, so
each step strictly shortens the input). -/
def replaceAllL (pat repl : Str) (s : Str) : Str := replaceAllF pat repl s.length s

/-- The six chained entity replaces of `stripHtml`, in source order. -/
def decodeEntitiesL (s : Str) : Str :=
  let s1 := replaceAllL "&nbsp;".toList " ".toList s
  let s2 := replaceAllL "&amp;".toList "&".toList s1
  let s3 := replaceAllL "&quot;".toList "\"".toList s2
  let s4 := replaceAllL ['&', '#', '3', '9', ';'] ['\''] s3
  let s5 := replaceAllL "&lt;".toList "<".toList s4
  let s6 := replaceAllL "&gt;".toList ">".toList s5
  s6

mutual

/-- The `replace(/\s+/g, ' ')` step: each maximal whitespace run becomes
one space. -/
def collapseWs : Str → Str
  | [] => []
  | c :: rest => if isJsWs c then ' ' :: afterWs rest else c :: collapseWs rest

/-- Skips the remainder of a whitespace run already represented by one
space. -/
def afterWs : Str → Str
  | [] => []
  | c :: rest => if isJsWs c then afterWs rest else c :: collapseWs rest

end

/-- The Text Normalizer `stripHtml` (`stripMarkup` of the spec): style and
script blocks removed, remaining tags replaced by spaces, the six named
entities decoded, whitespace collapsed, ends trimmed. -/
def stripHtml (s : Str) : Str :=
  trimL (collapseWs (decodeEntitiesL (removeTags (removeScriptBlocks (removeStyleBlocks s)))))

/-- Entry point with the `if (!input) return ''` guard: `null` (and the
falsy empty string) map to the empty result. -/
def stripHtmlN : Option Str → Str
  | none => []
  | some s => if s.isEmpty then [] else stripHtml s

/-! ## Pair Extractor (`extractAlbumArtistPairs`)

The three markup strategies navigate the cheerio DOM; the strings they
derive per candidate (block, bold link, image attribute match) are pure
functions of the input document computed by the host DOM library, so they
enter the model as explicit candidate lists.  Everything the repository
itself does with those strings - the `addPair` gate, the `>= 10` guards,
the loop/break structure, the plain-text fallback with its two line
patterns, and the final `slice(0, 10)` - is translated directly. -/

/-- A validated artist/album candidate (`{ artist, album }`). -/
structure Pair where
  artist : Str
  album : Str
deriving DecidableEq, Repr

/-- Case-insensitive identity key of a stored pair,
the template string of `pairs.some(...)`. -/
def pairKey (p : Pair) : Str := lowerStr p.artist ++ [':', ':'] ++ lowerStr p.album

/-- The key a trimmed submission would get. -/
def keyOf (a b : Str) : Str := lowerStr a ++ [':', ':'] ++ lowerStr b

/-- Membership of a key among the accumulated pairs. -/
def hasKey (ps : List Pair) (k : Str) : Bool := ps.any (fun p => pairKey p == k)

/-- Number of stored pairs carrying a given key. -/
def countKey (ps : List Pair) (k : Str) : Nat :=
  (ps.filter (fun p => pairKey p == k)).length

/-- The `addPair(artist, album)` gate: trim both, reject empty or
shorter-than-2 components, reject an already present case-insensitive
key, otherwise push the trimmed pair. -/
def addPair (ps : List Pair) (artist album : Str) : List Pair :=
  let a := trimL artist
  let b := trimL album
  if a.isEmpty || b.isEmpty || decide (a.length < 2) || decide (b.length < 2) then ps
  else if hasKey ps (keyOf a b) then ps
  else ps ++ [⟨a, b⟩]

/-- The candidate data the cheerio phase derives from one document:
per structured block the (artist, album) text pair it would submit, per
bold link the (artist, nearest emphasized text) pair, and per image the
list (at most two: `alt`, `title`) of attribute texts matching the
`artist:album` pattern, already split at the separator. -/
structure DomData where
  blocks : List (Str × Str)
  links : List (Str × Str)
  imgs : List (List (Str × Str))
deriving Repr

/-- Strategy 1: the `$('table.text_block.block-2').each` loop; each
iteration is skipped once ten pairs are present and submits one pair. -/
def runBlocks (ps : List Pair) (blocks : List (Str × Str)) : List Pair :=
  blocks.foldl (fun acc blk => if 10 ≤ acc.length then acc else addPair acc blk.1 blk.2) ps

/-- Strategy 2: the `$('strong a').each` loop (same guard shape). -/
def runLinks (ps : List Pair) (links : List (Str × Str)) : List Pair :=
  links.foldl (fun acc el => if 10 ≤ acc.length then acc else addPair acc el.1 el.2) ps

/-- Inner loop of strategy 3: both matched attribute texts of one image
are submitted, stopping early once ten pairs are present. -/
def addImgCandidates (ps : List Pair) : List (Str × Str) → List Pair
  | [] => ps
  | (a, b) :: rest =>
    let ps2 := addPair ps a b
    if 10 ≤ ps2.length then ps2 else addImgCandidates ps2 rest

/-- Strategy 3: the `$('img[alt], img[title]').each` loop. -/
def runImgs (ps : List Pair) (imgs : List (List (Str × Str))) : List Pair :=
  imgs.foldl (fun acc cands => if 10 ≤ acc.length then acc else addImgCandidates acc cands) ps

/-- The whole markup phase: strategies run in order, strategies 2 and 3
only while fewer than ten pairs have been collected.  Identical in the
monolithic script and the modular parser (the monolithic third sibling
scan inside `findNearestEm` restarts from `container.next()` and hence
revisits the same four siblings as the second scan, contributing no new
candidate, so one candidate list per bold link covers both files). -/
def markupPairs (d : DomData) : List Pair :=
  let p1 := runBlocks [] d.blocks
  let p2 := if p1.length < 10 then runLinks p1 d.links else p1
  if p2.length < 10 then runImgs p2 d.imgs else p2

/-! ### Plain-text fallback (monolithic script only) -/

/-- Split on the line-separator alternatives of
`text.split(/\n|\r|\r\n|...|.../g)`; splitting an empty string yields one
empty field, as in JavaScript. -/
def splitLines : Str → List Str
  | [] => [[]]
  | c :: rest =>
    if isLineSep c then [] :: splitLines rest
    else
      match splitLines rest with
      | l :: ls => (c :: l) :: ls
      | [] => [[c]]

/-- The `.map(trim).filter(Boolean)` post-processing of the split. -/
def linesOf (s : Str) : List Str :=
  ((splitLines s).map trimL).filter (fun l => !l.isEmpty)

/-- Deterministic content of a `^(.*?)\s*[-dash-]\s*(.*?)$` match: the
lazy first group ends before the whitespace run preceding the first dash
character, the greedy `\s*` runs absorb the whitespace around that dash,
and the second group is the remainder; since the caller trims both
groups, the match is the split at the first en-dash or hyphen with both
sides trimmed.  `none` exactly when no dash character occurs. -/
def matchDash (l : Str) : Option (Str × Str) :=
  let pre := l.takeWhile (fun c => !(c == '-' || c == '–'))
  if pre.length < l.length then some (trimL pre, trimL (l.drop (pre.length + 1)))
  else none

/-- After a whitespace run: expects `b`/`B`, `y`/`Y`, at least one more
whitespace character, and returns the remainder after that second run
(the deterministic residue of `\s+by\s+` with case-insensitive flag). -/
def byAfterWs (s : Str) : Option Str :=
  match s.dropWhile isJsWs with
  | cb :: cy :: rest2 =>
    if (cb == 'b' || cb == 'B') && (cy == 'y' || cy == 'Y') then
      match rest2 with
      | c2 :: _ => if isJsWs c2 then some (rest2.dropWhile isJsWs) else none
      | [] => none
    else none
  | _ => none

/-- Scan for the first position where `\s+by\s+` matches (the lazy first
group of `^(.*?)\s+by\s+(.*?)$` takes the shortest prefix). -/
def byScan (pre : Str) : Str → Option (Str × Str)
  | [] => none
  | c :: rest =>
    if isJsWs c then
      match byAfterWs (c :: rest) with
      | some suffix => some (pre, suffix)
      | none => byScan (pre ++ [c]) rest
    else byScan (pre ++ [c]) rest

/-- The `Album by Artist` pattern; both groups are trimmed by the caller,
so the trims are applied here. -/
def matchBy (l : Str) : Option (Str × Str) :=
  match byScan [] l with
  | some (alb, art) => some (trimL alb, trimL art)
  | none => none

/-- The fallback line loop: stops at ten pairs, first matching pattern
per line wins (`Artist - Album` first, then `Album by Artist`). -/
def linesLoop (ps : List Pair) : List Str → List Pair
  | [] => ps
  | l :: rest =>
    if 10 ≤ ps.length then ps
    else
      match matchDash l with
      | some (a, b) => linesLoop (addPair ps a b) rest
      | none =>
        match matchBy l with
        | some (alb, art) => linesLoop (addPair ps art alb) rest
        | none => linesLoop ps rest

/-- The complete plain-text fallback applied to a (nullable) raw body. -/
def fallbackPairs (ps : List Pair) (rawBody : Option Str) : List Pair :=
  linesLoop ps (linesOf (stripHtmlN rawBody))

/-- The monolithic `extractAlbumArtistPairs`
(pitchfork_spotify_playlist.mjs): a thrown markup phase (`.error`,
modelled as the document load itself throwing, before any pair is
collected) is caught and routed to the fallback; a markup phase that
produced at least one pair returns early; both exits cap the result at
ten with `slice(0, 10)`. -/
def extractAlbumArtistPairs (dom : Except Unit DomData) (rawBody : Option Str) : List Pair :=
  match dom with
  | .ok d =>
    let p := markupPairs d
    if 1 ≤ p.length then p.take 10
    else (fallbackPairs p rawBody).take 10
  | .error _ => (fallbackPairs [] rawBody).take 10

/-- The modular `extractAlbumArtistPairs`
(src/src/services/email/parser.mjs): the same markup strategies, but no
plain-text fallback and no final slice; a thrown markup phase is caught,
logged and yields the pairs accumulated so far (none when the document
load itself throws). -/
def extractAlbumArtistPairsModular (dom : Except Unit DomData) : List Pair :=
  match dom with
  | .ok d => markupPairs d
  | .error _ => []

/-! ## MIME encoded-word decoder (`decodeMimeEncodedWords`)

The regular expression `=\\?([^?]+)\\?([QqBb])\\?([^?]+)\\?=` is scanned
left to right; each match is replaced by the value of the replacer
callback.  The `try` body dispatches on the upper-cased encoding tag:
`B` goes through the Node `Buffer` base64 codec (a host service, injected
as a fallible function `b64`), `Q` through the quoted-printable decoding
implemented in the source itself; the `catch` returns the inner capture
group `text`. -/

/-- Hexadecimal digit value (`[0-9A-Fa-f]`). -/
def hexVal (c : Char) : Option Nat :=
  let n := c.toNat
  if 48 ≤ n ∧ n ≤ 57 then some (n - 48)
  else if 65 ≤ n ∧ n ≤ 70 then some (n - 55)
  else if 97 ≤ n ∧ n ≤ 102 then some (n - 87)
  else none

/-- The `replace(/=([0-9A-Fa-f]{2})/g, fromCharCode(parseInt(h, 16)))`
step of the Q branch. -/
def hexDecode : Str → Str
  | [] => []
  | '=' :: c1 :: c2 :: rest =>
    match hexVal c1, hexVal c2 with
    | some h1, some h2 => Char.ofNat (16 * h1 + h2) :: hexDecode rest
    | _, _ => '=' :: hexDecode (c1 :: c2 :: rest)
  | c :: rest => c :: hexDecode rest

/-- The Q branch: underscores to spaces, then `=HH` escapes. -/
def qDecode (s : Str) : Str :=
  hexDecode (s.map (fun c => if c == '_' then ' ' else c))

/-- The `try` body dispatch plus the `catch`: a failing base64 decode
falls back to the raw inner text. -/
def runDecode (b64 : Str → Except Unit Str) (e : Char) (txt : Str) : Str :=
  match (if e == 'B' || e == 'b' then b64 txt else .ok (qDecode txt)) with
  | .ok d => d
  | .error _ => txt

/-- Attempt of the encoded-word pattern at the current position: `=?`,
a nonempty run without `?` (charset), `?`, one of `QqBb`, `?`, a nonempty
run without `?` (payload), `?=`; returns the groups and the remainder. -/
def matchEncWord (s : Str) : Option (Str × Char × Str × Str) :=
  match s with
  | '=' :: '?' :: rest =>
    if (rest.takeWhile (fun c => c != '?')).isEmpty then none
    else
      match rest.drop (rest.takeWhile (fun c => c != '?')).length with
      | '?' :: e :: '?' :: rest2 =>
        if e == 'Q' || e == 'q' || e == 'B' || e == 'b' then
          if (rest2.takeWhile (fun c => c != '?')).isEmpty then none
          else
            match rest2.drop (rest2.takeWhile (fun c => c != '?')).length with
            | '?' :: '=' :: after =>
              some (rest.takeWhile (fun c => c != '?'), e,
                rest2.takeWhile (fun c => c != '?'), after)
            | _ => none
        else none
      | _ => none
  | _ => none

/-- Left-to-right global replace of encoded words.  The scan advances at
least one character per step, so the fuel supplied by the wrapper is
never exhausted. -/
def decodeMimeF (b64 : Str → Except Unit Str) : Nat → Str → Str
  | 0, s => s
  | _, [] => []
  | fuel + 1, c :: rest =>
    match matchEncWord (c :: rest) with
    | some (_, e, txt, after) => runDecode b64 e txt ++ decodeMimeF b64 fuel after
    | none => c :: decodeMimeF b64 fuel rest

/-- `decodeMimeEncodedWords` (identical in both source files). -/
def decodeMimeEncodedWords (b64 : Str → Except Unit Str) (s : Str) : Str :=
  decodeMimeF b64 s.length s

/-- Convenience: the full wrapped form `=?cs?e?txt?=` of an encoded word. -/
def encWord (cs : Str) (e : Char) (txt : Str) : Str :=
  '=' :: '?' :: (cs ++ '?' :: e :: '?' :: (txt ++ ['?', '=']))

/-! ## Cross-Email Aggregator (`main`, pitchfork_spotify_playlist.mjs,
lines 789-827; the modular `syncPlaylistsFromEmails` shares the shape) -/

/-- The generic `uniqueBy` with the case-insensitive pair key inlined
(the only instantiation the pipeline uses); `seen` models the `Set`. -/
def uniqueByKey (seen : List Str) : List Pair → List Pair
  | [] => []
  | p :: rest =>
    if pairKey p ∈ seen then uniqueByKey seen rest
    else p :: uniqueByKey (seen ++ [pairKey p]) rest

/-- `uniqueBy(pairs, p => artist::album lowercased)`. -/
def uniquePairs (l : List Pair) : List Pair := uniqueByKey [] l

/-- Substring test, the model of `String.prototype.includes`. -/
def isSubstr (pat : Str) : Str → Bool
  | [] => pat.isEmpty
  | c :: rest => pat.isPrefixOf (c :: rest) || isSubstr pat rest

/-- Decimal digits of a natural number (`String(n)`). -/
def natToStr (n : Nat) : Str :=
  (Nat.toDigits 10 n)

/-- `String(x).padStart(2, '0')`. -/
def pad2 (s : Str) : Str := if s.length < 2 then '0' :: s else s

/-- `formatMonthYYYYMM`: year digits, a hyphen, zero-padded month
(`getMonth()` is 0-based, hence the `+ 1`). -/
def formatMonthYYYYMM (year monthIdx : Nat) : Str :=
  natToStr year ++ ['-'] ++ pad2 (natToStr (monthIdx + 1))

/-- One fetched email as the aggregation loop sees it.  The send date
enters as the (host-clock) year and 0-based month that
`formatMonthYYYYMM(new Date(mail.date))` reads; the body enters through
the markup candidate data and the raw text, as in the extractor model;
`uid` is `Option Int` because the fetch layer stores `null` when the
mailbox message carries no integer UID. -/
structure MailRec where
  fromAddr : Str
  subject : Str
  uid : Option Int
  year : Nat
  monthIdx : Nat
  dom : Except Unit DomData
  body : Option Str

/-- `EXPECTED_FROM`. -/
def expectedFrom : Str := "newsletter@pitchfork.com".toList

/-- `EXPECTED_SUBJECT`. -/
def expectedSubject : Str := "10 Best Reviewed Albums of the Week".toList

/-- The defense-in-depth filter of the loop head:
`String(mail.from).toLowerCase().includes(EXPECTED_FROM)` and
`decodeMimeEncodedWords(mail.subject).trim() === EXPECTED_SUBJECT`. -/
def passesChecks (b64 : Str → Except Unit Str) (m : MailRec) : Bool :=
  isSubstr expectedFrom (lowerStr m.fromAddr) &&
    (trimL (decodeMimeEncodedWords b64 m.subject) == expectedSubject)

/-- Insertion-order-preserving `Map.set` with cumulative concatenation
(`existing.concat(pairs)`). -/
def updateBucket : List (Str × List Pair) → Str → List Pair → List (Str × List Pair)
  | [], m, ps => [(m, ps)]
  | (k, v) :: rest, m, ps =>
    if k = m then (k, v ++ ps) :: rest else (k, v) :: updateBucket rest m ps

/-- `Map.get(month) || []`. -/
def bucketVal : List (Str × List Pair) → Str → List Pair
  | [], _ => []
  | (k, v) :: rest, m => if k = m then v else bucketVal rest m

/-- `Set.add` on the processed-UID set. -/
def addToSet (s : List Int) (u : Int) : List Int :=
  if u ∈ s then s else s ++ [u]

/-- The mutable state of the aggregation loop: `monthToPairs` (insertion
ordered) and `successfulEmailUids`. -/
structure AggState where
  buckets : List (Str × List Pair)
  uids : List Int

/-- One iteration of the `for (const mail of emails)` loop: filter by
sender/subject, extract, deduplicate, skip (with a warning) when empty,
otherwise append to the month bucket and add the UID to the processed
set when `Number.isInteger(mail.uid)` holds (that is, when it is not
`null`). -/
def processEmail (b64 : Str → Except Unit Str) (st : AggState) (m : MailRec) : AggState :=
  if passesChecks b64 m then
    let rawPairs := extractAlbumArtistPairs m.dom m.body
    let pairs := uniquePairs rawPairs
    if pairs.isEmpty then st
    else
      let monthStr := formatMonthYYYYMM m.year m.monthIdx
      let st1 : AggState := ⟨updateBucket st.buckets monthStr pairs, st.uids⟩
      match m.uid with
      | some u => ⟨st1.buckets, addToSet st1.uids u⟩
      | none => st1
  else st

/-- The full aggregation pass over the fetched emails. -/
def processEmails (b64 : Str → Except Unit Str) (emails : List MailRec) : AggState :=
  emails.foldl (processEmail b64) ⟨[], []⟩

/-- The month bucket as handed to the Catalog Resolver: step 4 of `main`
re-deduplicates the accumulated list once more
(`uniqueBy(rawPairs, ...)`). -/
def resolverBucket (st : AggState) (m : Str) : List Pair :=
  uniquePairs (bucketVal st.buckets m)

/-! ## Playlist reorder (`reorderPlaylistByDateAdded`) -/

/-- One fetched playlist item: track URI and `added_at` timestamp
(epoch milliseconds, the value `getTime()` reads). -/
structure TrackItem where
  uri : Str
  added_at : Int
deriving DecidableEq, Repr

/-- Stable insertion into a descending list: the model of the stable
`Array.prototype.sort` with comparator `(a, b) => b.added_at - a.added_at`
(earlier elements stay in front of equal keys). -/
def insertDesc (t : TrackItem) : List TrackItem → List TrackItem
  | [] => [t]
  | u :: rest => if u.added_at ≤ t.added_at then t :: u :: rest else u :: insertDesc t rest

/-- `tracks.sort((a, b) => b.added_at.getTime() - a.added_at.getTime())`. -/
def sortByAddedDesc (ts : List TrackItem) : List TrackItem :=
  ts.foldr insertDesc []

/-- The JSON body of the reordering `PUT` request. -/
structure ReorderBody where
  range_start : Nat
  range_length : Nat
  insert_before : Nat
deriving DecidableEq, Repr

/-- The sorted URI sequence the function computes (`tracks.map(t => t.uri)`
after sorting) - the ordering the spec expects to be transmitted. -/
def sortedUris (ts : List TrackItem) : List Str :=
  (sortByAddedDesc ts).map TrackItem.uri

/-- What `reorderPlaylistByDateAdded` actually sends after fetching the
items: nothing when the playlist is empty, otherwise exactly one `PUT`
whose body is `{ range_start: 0, range_length: n, insert_before: n }`
with `n` the track count - the sorted URI list is not part of the body. -/
def reorderRequest (ts : List TrackItem) : Option ReorderBody :=
  if ts.isEmpty then none
  else
    let trackUris := sortedUris ts
    let rangeLength := trackUris.length
    some ⟨0, rangeLength, rangeLength⟩

/-- Semantics of the catalog reorder endpoint: move the
`range_length` items starting at `range_start` so that they sit before
the position `insert_before` of the original list. -/
def applyRangeMove (rangeStart rangeLength insertBefore : Nat) (l : List α) : List α :=
  let removed := (l.drop rangeStart).take rangeLength
  let rest := l.take rangeStart ++ l.drop (rangeStart + rangeLength)
  let pos := if rangeStart + rangeLength ≤ insertBefore then insertBefore - rangeLength
             else insertBefore
  rest.take pos ++ removed ++ rest.drop pos

/-! ## Helper lemmas -/

theorem addPair_length_le (ps : List Pair) (a b : Str) :
    (addPair ps a b).length ≤ ps.length + 1 := by
  simp only [addPair]
  split
  · omega
  · split
    · omega
    · simp

theorem length_le_addPair (ps : List Pair) (a b : Str) :
    ps.length ≤ (addPair ps a b).length := by
  simp only [addPair]
  split
  · omega
  · split
    · omega
    · simp

/-- A guarded accumulating fold never exceeds ten pairs when each step
adds at most enough to reach ten. -/
theorem guardedFoldl_le {α : Type} (f : List Pair → α → List Pair)
    (hf : ∀ ps x, ps.length ≤ 9 → (f ps x).length ≤ 10) :
    ∀ (l : List α) (ps : List Pair), ps.length ≤ 10 →
      (l.foldl (fun acc x => if 10 ≤ acc.length then acc else f acc x) ps).length ≤ 10 := by
  intro l
  induction l with
  | nil => intro ps h; simpa using h
  | cons x rest ih =>
    intro ps h
    simp only [List.foldl_cons]
    split
    · exact ih ps h
    · exact ih _ (hf ps x (by omega))

theorem runBlocks_le (ps : List Pair) (blocks : List (Str × Str))
    (h : ps.length ≤ 10) : (runBlocks ps blocks).length ≤ 10 := by
  unfold runBlocks
  exact guardedFoldl_le (fun acc blk => addPair acc blk.1 blk.2)
    (fun ps x hx => le_trans (addPair_length_le ps x.1 x.2) (by omega)) blocks ps h

theorem runLinks_le (ps : List Pair) (links : List (Str × Str))
    (h : ps.length ≤ 10) : (runLinks ps links).length ≤ 10 := by
  unfold runLinks
  exact guardedFoldl_le (fun acc el => addPair acc el.1 el.2)
    (fun ps x hx => le_trans (addPair_length_le ps x.1 x.2) (by omega)) links ps h

theorem addImgCandidates_le :
    ∀ (l : List (Str × Str)) (ps : List Pair), ps.length ≤ 9 →
      (addImgCandidates ps l).length ≤ 10 := by
  intro l
  induction l with
  | nil => intro ps h; simp only [addImgCandidates]; omega
  | cons x rest ih =>
    intro ps h
    obtain ⟨a, b⟩ := x
    simp only [addImgCandidates]
    have h2 := addPair_length_le ps a b
    split
    · omega
    next hlt =>
      exact ih _ (by omega)

theorem runImgs_le (ps : List Pair) (imgs : List (List (Str × Str)))
    (h : ps.length ≤ 10) : (runImgs ps imgs).length ≤ 10 := by
  unfold runImgs
  exact guardedFoldl_le addImgCandidates
    (fun ps x hx => addImgCandidates_le x ps hx) imgs ps h

theorem markupPairs_le (d : DomData) : (markupPairs d).length ≤ 10 := by
  simp only [markupPairs]
  have h1 : (runBlocks [] d.blocks).length ≤ 10 := runBlocks_le _ _ (by simp)
  have h2 : (runLinks (runBlocks [] d.blocks) d.links).length ≤ 10 :=
    runLinks_le _ _ h1
  split
  · split
    · exact runImgs_le _ _ h2
    · exact h2
  · exact h1

/-- C1: for every input (any number of structured blocks, bold links,
image candidates, or fallback lines), both the monolithic and the
modular `extractAlbumArtistPairs` return at most ten pairs. -/
theorem claim_C1_at_most_ten (dom dom2 : Except Unit DomData) (rawBody : Option Str) :
    (extractAlbumArtistPairs dom rawBody).length ≤ 10 ∧
    (extractAlbumArtistPairsModular dom2).length ≤ 10 := by
  constructor
  · cases dom with
    | ok d =>
      simp only [extractAlbumArtistPairs]
      split
      · exact le_trans (List.length_take_le 10 _) (le_refl 10)
      · exact le_trans (List.length_take_le 10 _) (le_refl 10)
    | error e =>
      simp only [extractAlbumArtistPairs]
      exact le_trans (List.length_take_le 10 _) (le_refl 10)
  · cases dom2 with
    | ok d => exact markupPairs_le d
    | error e => simp [extractAlbumArtistPairsModular]

/-! ### The addPair gate (C2) -/

/-- The gate condition of `addPair` rewritten as a proposition: the
emptiness tests are subsumed by the length tests. -/
theorem addPair_eq (ps : List Pair) (a b : Str) :
    addPair ps a b =
      if 2 ≤ (trimL a).length ∧ 2 ≤ (trimL b).length then
        (if hasKey ps (keyOf (trimL a) (trimL b)) then ps
         else ps ++ [⟨trimL a, trimL b⟩])
      else ps := by
  simp only [addPair]
  by_cases h1 : 2 ≤ (trimL a).length ∧ 2 ≤ (trimL b).length
  · rw [if_pos h1, if_neg]
    simp only [Bool.or_eq_true, List.isEmpty_eq_true, decide_eq_true_eq,
      ← List.length_eq_zero]
    omega
  · rw [if_neg h1, if_pos]
    simp only [Bool.or_eq_true, List.isEmpty_eq_true, decide_eq_true_eq,
      ← List.length_eq_zero]
    omega

theorem addPair_reject_short (ps : List Pair) (a b : Str)
    (h : ¬(2 ≤ (trimL a).length ∧ 2 ≤ (trimL b).length)) :
    addPair ps a b = ps := by
  rw [addPair_eq, if_neg h]

theorem addPair_reject_dup (ps : List Pair) (a b : Str)
    (h : hasKey ps (keyOf (trimL a) (trimL b)) = true) :
    addPair ps a b = ps := by
  rw [addPair_eq]
  split
  · simp [h]
  · rfl

theorem addPair_accept (ps : List Pair) (a b : Str)
    (h1 : 2 ≤ (trimL a).length) (h2 : 2 ≤ (trimL b).length)
    (h3 : hasKey ps (keyOf (trimL a) (trimL b)) = false) :
    addPair ps a b = ps ++ [⟨trimL a, trimL b⟩] := by
  rw [addPair_eq, if_pos ⟨h1, h2⟩, if_neg]
  simp [h3]

theorem countKey_append (ps qs : List Pair) (k : Str) :
    countKey (ps ++ qs) k = countKey ps k + countKey qs k := by
  simp [countKey, List.filter_append]

theorem countKey_eq_zero {ps : List Pair} {k : Str} (h : hasKey ps k = false) :
    countKey ps k = 0 := by
  simp only [countKey, List.length_eq_zero, List.filter_eq_nil_iff]
  intro p hp
  simp only [hasKey, List.any_eq_false] at h
  exact fun hk => (h p hp) hk

theorem hasKey_append_self (ps : List Pair) (p : Pair) :
    hasKey (ps ++ [p]) (pairKey p) = true := by
  simp [hasKey, List.any_append]

/-- C2: the `addPair` gate appends the trimmed entry exactly when both
components trim to length at least two and the case-insensitive key is
new; a rejected submission leaves the list unchanged; once a key is
present every further case-varying submission of that key is a no-op,
and a fresh accepted key is stored exactly once. -/
theorem claim_C2_addPair_gate (ps : List Pair) (a b : Str) :
    (addPair ps a b = ps ++ [⟨trimL a, trimL b⟩] ↔
      2 ≤ (trimL a).length ∧ 2 ≤ (trimL b).length ∧
        hasKey ps (keyOf (trimL a) (trimL b)) = false) ∧
    (¬(2 ≤ (trimL a).length ∧ 2 ≤ (trimL b).length ∧
        hasKey ps (keyOf (trimL a) (trimL b)) = false) →
      addPair ps a b = ps) ∧
    (∀ a2 b2 : Str, keyOf (trimL a2) (trimL b2) = keyOf (trimL a) (trimL b) →
      2 ≤ (trimL a).length → 2 ≤ (trimL b).length →
      addPair (addPair ps a b) a2 b2 = addPair ps a b) ∧
    (2 ≤ (trimL a).length → 2 ≤ (trimL b).length →
      hasKey ps (keyOf (trimL a) (trimL b)) = false →
      countKey (addPair ps a b) (keyOf (trimL a) (trimL b)) = 1) := by
  refine ⟨⟨?_, ?_⟩, ?_, ?_, ?_⟩
  · intro h
    by_cases h1 : 2 ≤ (trimL a).length ∧ 2 ≤ (trimL b).length
    · cases h2 : hasKey ps (keyOf (trimL a) (trimL b)) with
      | true =>
        rw [addPair_reject_dup ps a b h2] at h
        have := congrArg List.length h
        simp at this
      | false => exact ⟨h1.1, h1.2, rfl⟩
    · rw [addPair_reject_short ps a b h1] at h
      have := congrArg List.length h
      simp at this
  · rintro ⟨h1, h2, h3⟩
    exact addPair_accept ps a b h1 h2 h3
  · intro h
    by_cases h1 : 2 ≤ (trimL a).length ∧ 2 ≤ (trimL b).length
    · cases h2 : hasKey ps (keyOf (trimL a) (trimL b)) with
      | true => exact addPair_reject_dup ps a b h2
      | false => exact absurd ⟨h1.1, h1.2, h2⟩ h
    · exact addPair_reject_short ps a b h1
  · intro a2 b2 hk h1 h2
    by_cases hv : 2 ≤ (trimL a2).length ∧ 2 ≤ (trimL b2).length
    · apply addPair_reject_dup
      rw [hk]
      cases h3 : hasKey ps (keyOf (trimL a) (trimL b)) with
      | true => rw [addPair_reject_dup ps a b h3]; exact h3
      | false =>
        rw [addPair_accept ps a b h1 h2 h3]
        exact hasKey_append_self ps ⟨trimL a, trimL b⟩
    · exact addPair_reject_short _ a2 b2 hv
  · intro h1 h2 h3
    rw [addPair_accept ps a b h1 h2 h3, countKey_append, countKey_eq_zero h3]
    simp [countKey, pairKey, keyOf]

/-- Witness for C2 at a concrete input: a valid fresh pair is accepted,
and a case-varying resubmission of the same key changes nothing. -/
theorem claim_C2_addPair_gate_witness :
    addPair (addPair [] "Radiohead".toList "OK Computer".toList)
        "RADIOHEAD ".toList "ok computer".toList =
      addPair [] "Radiohead".toList "OK Computer".toList :=
  (claim_C2_addPair_gate [] "Radiohead".toList "OK Computer".toList).2.2.1
    "RADIOHEAD ".toList "ok computer".toList (by decide) (by decide) (by decide)

/-! ### Extraction is total and empty on candidate-free input (C4) -/

/-- C4: extraction never raises - the embedding is a total function in
which the `catch` routes a thrown markup phase (`.error`) into the
plain-text fallback - and on `<html></html>` (no candidate structures,
whichever way the markup phase ends) as well as on a `null` body the
result is the empty list. -/
theorem claim_C4_total_and_empty :
    extractAlbumArtistPairs (.ok ⟨[], [], []⟩) (some "<html></html>".toList) = [] ∧
    extractAlbumArtistPairs (.error ()) (some "<html></html>".toList) = [] ∧
    extractAlbumArtistPairs (.ok ⟨[], [], []⟩) none = [] ∧
    extractAlbumArtistPairs (.error ()) none = [] := by
  refine ⟨by decide, by decide, by decide, by decide⟩

/-! ### Whitespace structure of the normalizer output (C10) -/

theorem collapseWs_ws_is_space :
    ∀ l : Str, (∀ x ∈ collapseWs l, isJsWs x = true → x = ' ') ∧
      (∀ x ∈ afterWs l, isJsWs x = true → x = ' ') := by
  intro l
  induction l with
  | nil => exact ⟨by simp [collapseWs], by simp [afterWs]⟩
  | cons c rest ih =>
    constructor
    · intro x hx hwx
      simp only [collapseWs] at hx
      split at hx
      · rcases List.mem_cons.mp hx with h | h
        · exact h
        · exact ih.2 x h hwx
      next hc =>
        rcases List.mem_cons.mp hx with h | h
        · subst h; exact absurd hwx hc
        · exact ih.1 x h hwx
    · intro x hx hwx
      simp only [afterWs] at hx
      split at hx
      · exact ih.2 x hx hwx
      next hc =>
        rcases List.mem_cons.mp hx with h | h
        · subst h; exact absurd hwx hc
        · exact ih.1 x h hwx

theorem mem_dropTrailingWs {x : Char} :
    ∀ {l : Str}, x ∈ dropTrailingWs l → x ∈ l := by
  intro l
  induction l with
  | nil => intro h; simp [dropTrailingWs] at h
  | cons c rest ih =>
    intro h
    simp only [dropTrailingWs] at h
    split at h
    · exact absurd h (by simp)
    · rcases List.mem_cons.mp h with h2 | h2
      · exact h2 ▸ List.mem_cons_self c rest
      · exact List.mem_cons_of_mem c (ih h2)

theorem mem_trimL {x : Char} {l : Str} (h : x ∈ trimL l) : x ∈ l := by
  unfold trimL at h
  exact (List.dropWhile_sublist isJsWs).mem (mem_dropTrailingWs h)

theorem stripHtml_ws_is_space {s : Str} :
    ∀ x ∈ stripHtml s, isJsWs x = true → x = ' ' := by
  intro x hx hwx
  unfold stripHtml at hx
  exact (collapseWs_ws_is_space _).1 x (mem_trimL hx) hwx

theorem lineSep_is_ws {c : Char} (h : isLineSep c = true) : isJsWs c = true := by
  simp only [isLineSep, Bool.or_eq_true, beq_iff_eq] at h
  simp only [isJsWs, Bool.or_eq_true, Bool.and_eq_true, beq_iff_eq,
    decide_eq_true_eq]
  omega

theorem stripHtml_noLineSep {s : Str} :
    ∀ x ∈ stripHtml s, isLineSep x = false := by
  intro x hx
  cases hl : isLineSep x with
  | false => rfl
  | true =>
    have := stripHtml_ws_is_space x hx (lineSep_is_ws hl)
    subst this
    exact absurd hl (by decide)

theorem splitLines_single :
    ∀ {s : Str}, (∀ c ∈ s, isLineSep c = false) → splitLines s = [s] := by
  intro s
  induction s with
  | nil => intro _; rfl
  | cons c rest ih =>
    intro h
    have hc : isLineSep c = false := h c (List.mem_cons_self c rest)
    have hrest : splitLines rest = [rest] :=
      ih (fun x hx => h x (List.mem_cons_of_mem c hx))
    simp [splitLines, hc, hrest]

theorem linesOf_stripHtml_le_one (s : Str) :
    (linesOf (stripHtml s)).length ≤ 1 := by
  have h := splitLines_single (stripHtml_noLineSep (s := s))
  unfold linesOf
  rw [h]
  have h2 := List.length_filter_le (fun l : Str => !l.isEmpty)
    ([stripHtml s].map trimL)
  simpa using h2

theorem linesLoop_length :
    ∀ (lines : List Str) (ps : List Pair),
      (linesLoop ps lines).length ≤ ps.length + lines.length := by
  intro lines
  induction lines with
  | nil => intro ps; simp [linesLoop]
  | cons l rest ih =>
    intro ps
    simp only [linesLoop]
    split
    · simp only [List.length_cons]; omega
    · cases hd : matchDash l with
      | some ab =>
        obtain ⟨a, b⟩ := ab
        have h1 := ih (addPair ps a b)
        have h2 := addPair_length_le ps a b
        simp only [List.length_cons]
        omega
      | none =>
        cases hb : matchBy l with
        | some ab =>
          obtain ⟨alb, art⟩ := ab
          have h1 := ih (addPair ps art alb)
          have h2 := addPair_length_le ps art alb
          simp only [List.length_cons]
          omega
        | none =>
          have h1 := ih ps
          simp only [List.length_cons]
          omega

/-- C10: since `stripHtml` rewrites every whitespace character -
including every line separator the fallback splits on - into single
spaces, the split of its output yields at most one non-empty line, and
the plain-text fallback therefore grows the pair list by at most one
entry, for every raw body. -/
theorem claim_C10_fallback_single_line (rawBody : Option Str) (ps : List Pair) (s : Str) :
    (linesOf (stripHtml s)).length ≤ 1 ∧
    (fallbackPairs ps rawBody).length ≤ ps.length + 1 := by
  constructor
  · exact linesOf_stripHtml_le_one s
  · unfold fallbackPairs
    have hlen : (linesOf (stripHtmlN rawBody)).length ≤ 1 := by
      cases rawBody with
      | none => decide
      | some b =>
        simp only [stripHtmlN]
        split
        · decide
        · exact linesOf_stripHtml_le_one b
    have := linesLoop_length (linesOf (stripHtmlN rawBody)) ps
    omega

/-! ### The reorder request carries no ordering (C6) -/

/-- C6: after re-fetching and sorting, `reorderPlaylistByDateAdded`
issues one `PUT` whose body is only `{range_start: 0, range_length: n,
insert_before: n}`; moving the whole range before its own end is the
identity permutation, so the computed newest-first ordering (which does
differ from the fetched order) is never applied - newest-added tracks
do not end up at the front. -/
theorem claim_C6_reorder_noop :
    (∀ (l : List Str), applyRangeMove 0 l.length l.length l = l) ∧
    reorderRequest [⟨"spotify:track:AAA".toList, 1⟩, ⟨"spotify:track:BBB".toList, 2⟩]
      = some ⟨0, 2, 2⟩ ∧
    sortedUris [⟨"spotify:track:AAA".toList, 1⟩, ⟨"spotify:track:BBB".toList, 2⟩]
      = ["spotify:track:BBB".toList, "spotify:track:AAA".toList] ∧
    applyRangeMove 0 2 2 ["spotify:track:AAA".toList, "spotify:track:BBB".toList]
      = ["spotify:track:AAA".toList, "spotify:track:BBB".toList] ∧
    sortedUris [⟨"spotify:track:AAA".toList, 1⟩, ⟨"spotify:track:BBB".toList, 2⟩]
      ≠ ["spotify:track:AAA".toList, "spotify:track:BBB".toList] := by
  refine ⟨?_, by decide, by decide, by decide, by decide⟩
  intro l
  simp [applyRangeMove]

/-! ### Idempotence analysis of the normalizer (C5) -/

/-- C5 counterexample: entity decoding can re-introduce markup, which a
second pass then strips - `stripHtml` is not idempotent. -/
theorem claim_C5_counterexample :
    stripHtml (stripHtml "&lt;b&gt;".toList) ≠ stripHtml "&lt;b&gt;".toList := by
  decide

/-- Head character is not whitespace (vacuously true for the empty
string). -/
def headNotWs : Str → Bool
  | [] => true
  | c :: _ => !(isJsWs c)

/-- Every whitespace character is a space and no two whitespace
characters are adjacent. -/
def goodWs : Str → Bool
  | [] => true
  | c :: rest =>
    (if isJsWs c then c == ' ' && headNotWs rest else true) && goodWs rest

/-- Last character is not whitespace (vacuously true for the empty
string). -/
def lastNotWs : Str → Bool
  | [] => true
  | [c] => !(isJsWs c)
  | _ :: c :: rest => lastNotWs (c :: rest)

theorem goodWs_tail {c : Char} {rest : Str} (h : goodWs (c :: rest) = true) :
    goodWs rest = true := by
  simp only [goodWs, Bool.and_eq_true] at h
  exact h.2

theorem collapseWs_goodWs :
    ∀ l : Str, goodWs (collapseWs l) = true ∧
      goodWs (afterWs l) = true ∧ headNotWs (afterWs l) = true := by
  intro l
  induction l with
  | nil => exact ⟨rfl, rfl, rfl⟩
  | cons c rest ih =>
    refine ⟨?_, ?_, ?_⟩
    · simp only [collapseWs]
      split
      · simp only [goodWs, Bool.and_eq_true]
        refine ⟨?_, ih.2.1⟩
        simp [ih.2.2]
      next hc =>
        simp only [goodWs, Bool.and_eq_true]
        refine ⟨?_, ih.1⟩
        rw [if_neg (by simpa using hc)]
    · simp only [afterWs]
      split
      · exact ih.2.1
      next hc =>
        simp only [goodWs, Bool.and_eq_true]
        refine ⟨?_, ih.1⟩
        rw [if_neg (by simpa using hc)]
    · simp only [afterWs]
      split
      · exact ih.2.2
      next hc =>
        simp only [headNotWs]
        simpa using hc

theorem goodWs_dropWhile {l : Str} (h : goodWs l = true) :
    goodWs (l.dropWhile isJsWs) = true := by
  induction l with
  | nil => simpa using h
  | cons c rest ih =>
    rw [List.dropWhile_cons]
    split
    · exact ih (goodWs_tail h)
    · exact h

theorem headNotWs_dropWhile (l : Str) :
    headNotWs (l.dropWhile isJsWs) = true := by
  induction l with
  | nil => rfl
  | cons c rest ih =>
    rw [List.dropWhile_cons]
    split
    · exact ih
    next hc => simp [headNotWs, hc]

theorem headNotWs_dropTrailingWs {l : Str} (h : headNotWs l = true) :
    headNotWs (dropTrailingWs l) = true := by
  cases l with
  | nil => rfl
  | cons c rest =>
    simp only [dropTrailingWs]
    split
    · rfl
    · simpa [headNotWs] using h

theorem goodWs_dropTrailingWs {l : Str} (h : goodWs l = true) :
    goodWs (dropTrailingWs l) = true := by
  induction l with
  | nil => rfl
  | cons c rest ih =>
    simp only [dropTrailingWs]
    split
    · rfl
    · simp only [goodWs, Bool.and_eq_true] at h ⊢
      refine ⟨?_, ih h.2⟩
      split
      next hc =>
        have h1 := h.1
        rw [if_pos hc] at h1
        simp only [Bool.and_eq_true] at h1 ⊢
        exact ⟨h1.1, headNotWs_dropTrailingWs h1.2⟩
      · rfl

theorem lastNotWs_dropTrailingWs (l : Str) :
    lastNotWs (dropTrailingWs l) = true := by
  induction l with
  | nil => rfl
  | cons c rest ih =>
    simp only [dropTrailingWs]
    split
    · rfl
    next hcond =>
      cases hr : dropTrailingWs rest with
      | nil =>
        rw [hr] at hcond
        simp only [List.isEmpty_nil, Bool.true_and] at hcond
        simp [lastNotWs, hcond]
      | cons d t =>
        rw [hr] at ih
        simpa [lastNotWs] using ih

theorem collapseWs_id :
    ∀ y : Str, (goodWs y = true → collapseWs y = y) ∧
      (goodWs y = true → headNotWs y = true → afterWs y = y) := by
  intro y
  induction y with
  | nil => exact ⟨fun _ => rfl, fun _ _ => rfl⟩
  | cons c rest ih =>
    constructor
    · intro hg
      simp only [collapseWs]
      split
      next hc =>
        simp only [goodWs, Bool.and_eq_true, if_pos hc] at hg
        obtain ⟨⟨hsp, hhd⟩, hgr⟩ := hg
        have hc2 : c = ' ' := by simpa using hsp
        rw [ih.2 hgr hhd, hc2]
      · rw [ih.1 (goodWs_tail hg)]
    · intro hg hh
      simp only [afterWs]
      split
      next hc =>
        simp only [headNotWs, hc] at hh
        simp at hh
      · rw [ih.1 (goodWs_tail hg)]

theorem dropTrailingWs_id {y : Str} (h : lastNotWs y = true) :
    dropTrailingWs y = y := by
  induction y with
  | nil => rfl
  | cons c rest ih =>
    cases rest with
    | nil =>
      simp only [lastNotWs] at h
      have hc : isJsWs c = false := by simpa using h
      simp [dropTrailingWs, hc]
    | cons d t =>
      simp only [lastNotWs] at h
      have hr := ih h
      rw [dropTrailingWs, hr]
      simp

theorem trimL_id {y : Str} (hh : headNotWs y = true) (hl : lastNotWs y = true) :
    trimL y = y := by
  unfold trimL
  have hdw : y.dropWhile isJsWs = y := by
    cases y with
    | nil => rfl
    | cons c rest =>
      rw [List.dropWhile_cons]
      simp only [headNotWs] at hh
      rw [if_neg (by simpa using hh)]
  rw [hdw]
  exact dropTrailingWs_id hl

theorem stripHtml_goodWs (s : Str) :
    goodWs (stripHtml s) = true ∧ headNotWs (stripHtml s) = true ∧
      lastNotWs (stripHtml s) = true := by
  unfold stripHtml
  set z := decodeEntitiesL (removeTags (removeScriptBlocks (removeStyleBlocks s)))
  refine ⟨?_, ?_, ?_⟩
  · exact goodWs_dropTrailingWs (goodWs_dropWhile (collapseWs_goodWs z).1)
  · exact headNotWs_dropTrailingWs (headNotWs_dropWhile (collapseWs z))
  · exact lastNotWs_dropTrailingWs _

theorem lowerChar_eq_lt {c : Char} (h : lowerChar c = '<') : c = '<' := by
  unfold lowerChar at h
  split at h
  next hr =>
    exfalso
    have hv : (c.toNat + 32).isValidChar := Or.inl (by omega)
    have ht : (Char.ofNat (c.toNat + 32)).toNat = c.toNat + 32 := by
      unfold Char.ofNat
      rw [dif_pos hv]
      rfl
    have h60 : ('<' : Char).toNat = 60 := by decide
    have := congrArg Char.toNat h
    rw [ht, h60] at this
    omega
  · exact h

theorem isCIPrefix_lt_false {c : Char} (hc : c ≠ '<') (op rest : Str) :
    isCIPrefix ('<' :: op) (c :: rest) = false := by
  simp only [isCIPrefix, List.length_cons, List.take_succ_cons, lowerStr,
    List.map_cons]
  rw [beq_eq_false_iff_ne]
  intro h
  have hhead : lowerChar c = lowerChar '<' := (List.cons.injEq _ _ _ _ ▸ h).1
  have hlt : lowerChar '<' = '<' := by decide
  exact hc (lowerChar_eq_lt (hhead.trans hlt))

theorem removeBlocksF_id (op closePat : Str) :
    ∀ (fuel : Nat) (l : Str), '<' ∉ l →
      removeBlocksF ('<' :: op) closePat fuel l = l := by
  intro fuel
  induction fuel with
  | zero => intro l _; cases l <;> rfl
  | succ n ih =>
    intro l hl
    cases l with
    | nil => rfl
    | cons c rest =>
      have hc : c ≠ '<' := fun h => hl (h ▸ List.mem_cons_self c rest)
      rw [removeBlocksF, isCIPrefix_lt_false hc]
      simp only [Bool.false_eq_true, if_false]
      rw [ih rest (fun h => hl (List.mem_cons_of_mem c h))]

theorem removeStyleBlocks_id {l : Str} (h : '<' ∉ l) :
    removeStyleBlocks l = l := by
  have he : "<style".toList = '<' :: "style".toList := rfl
  unfold removeStyleBlocks
  rw [he]
  exact removeBlocksF_id _ _ _ l h

theorem removeScriptBlocks_id {l : Str} (h : '<' ∉ l) :
    removeScriptBlocks l = l := by
  have he : "<script".toList = '<' :: "script".toList := rfl
  unfold removeScriptBlocks
  rw [he]
  exact removeBlocksF_id _ _ _ l h

theorem removeTagsF_id :
    ∀ (fuel : Nat) (l : Str), '<' ∉ l → removeTagsF fuel l = l := by
  intro fuel
  induction fuel with
  | zero => intro l _; cases l <;> rfl
  | succ n ih =>
    intro l hl
    cases l with
    | nil => rfl
    | cons c rest =>
      have hc : c ≠ '<' := fun h => hl (h ▸ List.mem_cons_self c rest)
      rw [removeTagsF, if_neg hc]
      rw [ih rest (fun h => hl (List.mem_cons_of_mem c h))]

theorem removeTags_id {l : Str} (h : '<' ∉ l) : removeTags l = l :=
  removeTagsF_id l.length l h

theorem replaceAllF_id {a : Char} {pat : Str} (hpat : pat.head? = some a)
    (repl : Str) :
    ∀ (fuel : Nat) (l : Str), a ∉ l → replaceAllF pat repl fuel l = l := by
  intro fuel
  induction fuel with
  | zero => intro l _; cases l <;> rfl
  | succ n ih =>
    intro l hl
    cases l with
    | nil => rfl
    | cons c rest =>
      obtain ⟨pt, rfl⟩ : ∃ pt, pat = a :: pt := by
        cases pat with
        | nil => simp at hpat
        | cons x xs =>
          simp only [List.head?_cons, Option.some.injEq] at hpat
          exact ⟨xs, by rw [hpat]⟩
      have hc : ¬((a :: pt).isPrefixOf (c :: rest) = true) := by
        simp only [List.isPrefixOf, Bool.and_eq_true, beq_iff_eq]
        rintro ⟨rfl, -⟩
        exact hl (List.mem_cons_self a rest)
      rw [replaceAllF, if_neg hc]
      rw [ih rest (fun h => hl (List.mem_cons_of_mem c h))]

theorem replaceAllL_id {a : Char} {pat : Str} (hpat : pat.head? = some a)
    (repl : Str) {l : Str} (hl : a ∉ l) : replaceAllL pat repl l = l :=
  replaceAllF_id hpat repl l.length l hl

theorem decodeEntitiesL_id {l : Str} (h : '&' ∉ l) : decodeEntitiesL l = l := by
  simp only [decodeEntitiesL]
  rw [replaceAllL_id (by decide) _ h, replaceAllL_id (by decide) _ h,
    replaceAllL_id (by decide) _ h, replaceAllL_id (by decide) _ h,
    replaceAllL_id (by decide) _ h, replaceAllL_id (by decide) _ h]

/-- C5 amended: `stripHtml` is idempotent at every input whose first-pass
output contains neither `<` nor `&` (on such outputs all four
markup/entity stages are the identity and the whitespace normalization is
already a fixed point); the counterexample shows the unconditional claim
fails when entity decoding re-introduces markup characters. -/
theorem claim_C5_idempotent_amended (s : Str)
    (h1 : '<' ∉ stripHtml s) (h2 : '&' ∉ stripHtml s) :
    stripHtml (stripHtml s) = stripHtml s := by
  obtain ⟨hg, hh, hl⟩ := stripHtml_goodWs s
  nth_rewrite 1 [stripHtml]
  rw [removeStyleBlocks_id h1, removeScriptBlocks_id h1, removeTags_id h1,
    decodeEntitiesL_id h2, (collapseWs_id (stripHtml s)).1 hg, trimL_id hh hl]

/-- Witness for the amended C5 at a concrete input whose first-pass
output is free of markup and entity characters. -/
theorem claim_C5_idempotent_amended_witness :
    stripHtml (stripHtml "<p>Hello   world</p>".toList) =
      stripHtml "<p>Hello   world</p>".toList :=
  claim_C5_idempotent_amended "<p>Hello   world</p>".toList
    (by decide) (by decide)

/-! ### Failed encoded-word runs lose their wrapper (C7) -/

theorem takeWhile_append_stop {p : Char → Bool} :
    ∀ (xs : Str) (y : Char) (ys : Str), (∀ x ∈ xs, p x = true) → p y = false →
      List.takeWhile p (xs ++ y :: ys) = xs := by
  intro xs
  induction xs with
  | nil =>
    intro y ys _ hy
    simp [List.takeWhile_cons, hy]
  | cons x xt ih =>
    intro y ys hall hy
    have hx : p x = true := hall x (List.mem_cons_self x xt)
    simp only [List.cons_append, List.takeWhile_cons, hx, if_true]
    rw [ih y ys (fun z hz => hall z (List.mem_cons_of_mem x hz)) hy]

theorem drop_length_append (xs ys : Str) : (xs ++ ys).drop xs.length = ys := by
  induction xs with
  | nil => simp
  | cons x xt ih => simp [ih]

theorem matchEncWord_encWord (cs txt rest : Str) (e : Char)
    (hcs : cs ≠ []) (hcsq : ∀ x ∈ cs, x ≠ '?')
    (htxt : txt ≠ []) (htq : ∀ x ∈ txt, x ≠ '?')
    (he : (e == 'Q' || e == 'q' || e == 'B' || e == 'b') = true) :
    matchEncWord (encWord cs e txt ++ rest) = some (cs, e, txt, rest) := by
  have hs : encWord cs e txt ++ rest =
      '=' :: '?' :: (cs ++ '?' :: e :: '?' :: (txt ++ '?' :: '=' :: rest)) := by
    simp [encWord]
  rw [hs]
  have htw : List.takeWhile (fun c => c != '?')
      (cs ++ '?' :: e :: '?' :: (txt ++ '?' :: '=' :: rest)) = cs :=
    takeWhile_append_stop cs '?' _
      (fun x hx => by simpa using hcsq x hx) (by decide)
  have htw2 : List.takeWhile (fun c => c != '?') (txt ++ '?' :: '=' :: rest) = txt :=
    takeWhile_append_stop txt '?' _
      (fun x hx => by simpa using htq x hx) (by decide)
  simp only [matchEncWord, htw, htw2, drop_length_append, List.isEmpty_eq_true,
    hcs, htxt, if_false, he, if_true]

theorem matchEncWord_length {s cs txt after : Str} {e : Char}
    (h : matchEncWord s = some (cs, e, txt, after)) :
    after.length < s.length := by
  unfold matchEncWord at h
  split at h
  next rest =>
    split at h
    · exact absurd h (by simp)
    · split at h
      next e2 rest2 heq =>
        split at h
        · split at h
          · exact absurd h (by simp)
          · split at h
            next after2 heq2 =>
              simp only [Option.some.injEq, Prod.mk.injEq] at h
              obtain ⟨h1, h2, h3, h4⟩ := h
              subst h4
              have l1 := congrArg List.length heq
              have l2 := congrArg List.length heq2
              simp only [List.length_cons, List.length_drop] at l1 l2
              simp only [List.length_cons]
              omega
            · exact absurd h (by simp)
        · exact absurd h (by simp)
      · exact absurd h (by simp)
  · exact absurd h (by simp)

theorem decodeMimeF_fuelIrrel (b64 : Str → Except Unit Str) :
    ∀ (fuel : Nat) (l : Str), l.length ≤ fuel →
      decodeMimeF b64 fuel l = decodeMimeF b64 l.length l := by
  intro fuel
  induction fuel using Nat.strong_induction_on with
  | _ fuel ih =>
    intro l hl
    match fuel, l with
    | 0, l =>
      have : l = [] := by
        cases l with
        | nil => rfl
        | cons c rest => simp at hl
      subst this
      rfl
    | f + 1, [] => rfl
    | f + 1, c :: rest =>
      simp only [List.length_cons] at hl ⊢
      rw [decodeMimeF, decodeMimeF]
      cases hm : matchEncWord (c :: rest) with
      | some q =>
        obtain ⟨cs, e, txt, after⟩ := q
        have hlen : after.length < rest.length + 1 := by
          have := matchEncWord_length hm
          simpa using this
        dsimp only
        rw [ih f (by omega) after (by omega),
          ih rest.length (by omega) after (by omega)]
      | none =>
        dsimp only
        rw [ih f (by omega) rest (by omega),
          ih rest.length (by omega) rest (by omega)]

theorem decodeMime_encWord (b64 : Str → Except Unit Str)
    (cs txt rest : Str) (e : Char)
    (hcs : cs ≠ []) (hcsq : ∀ x ∈ cs, x ≠ '?')
    (htxt : txt ≠ []) (htq : ∀ x ∈ txt, x ≠ '?')
    (he : (e == 'Q' || e == 'q' || e == 'B' || e == 'b') = true) :
    decodeMimeEncodedWords b64 (encWord cs e txt ++ rest) =
      runDecode b64 e txt ++ decodeMimeEncodedWords b64 rest := by
  have hm := matchEncWord_encWord cs txt rest e hcs hcsq htxt htq he
  have hshape : encWord cs e txt ++ rest =
      '=' :: '?' :: ((cs ++ '?' :: e :: '?' :: (txt ++ ['?', '='])) ++ rest) := by
    simp [encWord]
  unfold decodeMimeEncodedWords
  rw [hshape] at hm ⊢
  simp only [List.length_cons]
  rw [decodeMimeF, hm]
  dsimp only
  congr 1
  rw [decodeMimeF_fuelIrrel]
  simp only [List.length_append]
  omega

/-- C7 counterexample: when the decode of a run fails, its original
encoded form (with the `=?charset?enc?` and `?=` wrapper) is not what
remains - only the bare payload text does. -/
theorem claim_C7_counterexample :
    decodeMimeEncodedWords (fun _ => (.error () : Except Unit Str))
        "=?utf-8?B?SGVsbG8=?=".toList = "SGVsbG8=".toList ∧
      "SGVsbG8=".toList ≠ "=?utf-8?B?SGVsbG8=?=".toList := by
  exact ⟨by decide, by decide⟩

/-- C7 amended: when decoding an individual well-formed encoded-word run
fails, the run is replaced by its inner payload text with the
`=?charset?enc?` prefix and `?=` suffix stripped, and the remainder of
the string is still decoded normally. -/
theorem claim_C7_failed_run_inner_text (b64 : Str → Except Unit Str)
    (cs txt rest : Str) (e : Char)
    (hcs : cs ≠ []) (hcsq : ∀ x ∈ cs, x ≠ '?')
    (htxt : txt ≠ []) (htq : ∀ x ∈ txt, x ≠ '?')
    (he : e = 'B' ∨ e = 'b') (hfail : b64 txt = .error ()) :
    decodeMimeEncodedWords b64 (encWord cs e txt ++ rest) =
      txt ++ decodeMimeEncodedWords b64 rest := by
  rw [decodeMime_encWord b64 cs txt rest e hcs hcsq htxt htq
    (by rcases he with rfl | rfl <;> rfl)]
  congr 1
  rcases he with rfl | rfl <;> simp [runDecode, hfail]

/-- Witness for the amended C7: a concrete failing base64 run keeps its
payload and the rest of the string still decodes. -/
theorem claim_C7_failed_run_inner_text_witness :
    decodeMimeEncodedWords (fun _ => (.error () : Except Unit Str))
        (encWord "utf-8".toList 'B' "QQ==".toList ++ " tail =?x?Q?a_b?=".toList) =
      "QQ==".toList ++
        decodeMimeEncodedWords (fun _ => (.error () : Except Unit Str))
          " tail =?x?Q?a_b?=".toList :=
  claim_C7_failed_run_inner_text (fun _ => (.error () : Except Unit Str))
    "utf-8".toList "QQ==".toList " tail =?x?Q?a_b?=".toList 'B'
    (by decide) (by decide) (by decide) (by decide) (Or.inl rfl) rfl

/-! ### The modular parser versus the monolithic extractor (C9) -/

theorem take_of_le_length {l : List Pair} {n : Nat} (h : l.length ≤ n) :
    l.take n = l := List.take_of_length_le h

/-- C9 counterexample: on a body whose markup strategies yield nothing
but whose plain text matches the dash pattern, the monolithic extractor
returns a pair while the modular parser returns the empty list. -/
theorem claim_C9_counterexample :
    extractAlbumArtistPairs (.ok ⟨[], [], []⟩)
        (some "The Beatles - Abbey Road".toList) ≠
      extractAlbumArtistPairsModular (.ok ⟨[], [], []⟩) ∧
    extractAlbumArtistPairs (.ok ⟨[], [], []⟩)
        (some "The Beatles - Abbey Road".toList) =
      [⟨"The Beatles".toList, "Abbey Road".toList⟩] ∧
    extractAlbumArtistPairsModular (.ok ⟨[], [], []⟩) = [] := by
  refine ⟨by decide, by decide, by decide⟩

/-- C9 amended: the two extractors agree on every input whose markup
strategies yield at least one pair (the monolithic `slice(0, 10)` is the
identity there because the strategies never collect more than ten); they
diverge when the markup phase yields zero pairs or throws, where only
the monolithic script runs the plain-text fallback. -/
theorem claim_C9_agree_on_markup_success (d : DomData) (rawBody : Option Str)
    (h : 1 ≤ (markupPairs d).length) :
    extractAlbumArtistPairs (.ok d) rawBody =
      extractAlbumArtistPairsModular (.ok d) := by
  simp only [extractAlbumArtistPairs, extractAlbumArtistPairsModular]
  rw [if_pos h]
  exact take_of_le_length (markupPairs_le d)

/-- Witness for the amended C9 at a concrete one-block document. -/
theorem claim_C9_agree_on_markup_success_witness :
    extractAlbumArtistPairs
        (.ok ⟨[("Pink Floyd".toList, "The Dark Side of the Moon".toList)], [], []⟩)
        none =
      extractAlbumArtistPairsModular
        (.ok ⟨[("Pink Floyd".toList, "The Dark Side of the Moon".toList)], [], []⟩) :=
  claim_C9_agree_on_markup_success
    ⟨[("Pink Floyd".toList, "The Dark Side of the Moon".toList)], [], []⟩
    none (by decide)

/-! ### The processed-UID set (C8) -/

theorem mem_addToSet {s : List Int} {u v : Int} :
    v ∈ addToSet s u ↔ v ∈ s ∨ v = u := by
  unfold addToSet
  split
  next h =>
    constructor
    · exact Or.inl
    · rintro (hv | rfl)
      · exact hv
      · exact h
  · simp [List.mem_append]

theorem processEmail_uids (b64 : Str → Except Unit Str) (st : AggState)
    (m : MailRec) (u : Int) :
    u ∈ (processEmail b64 st m).uids ↔
      u ∈ st.uids ∨ (passesChecks b64 m = true ∧
        uniquePairs (extractAlbumArtistPairs m.dom m.body) ≠ [] ∧
        m.uid = some u) := by
  simp only [processEmail]
  by_cases hp : passesChecks b64 m = true
  · rw [if_pos hp]
    by_cases hq : (uniquePairs (extractAlbumArtistPairs m.dom m.body)).isEmpty = true
    · rw [if_pos hq]
      have : uniquePairs (extractAlbumArtistPairs m.dom m.body) = [] := by
        simpa [List.isEmpty_eq_true] using hq
      simp [this]
    · rw [if_neg hq]
      have hne : uniquePairs (extractAlbumArtistPairs m.dom m.body) ≠ [] := by
        simpa [List.isEmpty_eq_true] using hq
      cases hu : m.uid with
      | some v =>
        rw [mem_addToSet]
        constructor
        · rintro (h | rfl)
          · exact Or.inl h
          · exact Or.inr ⟨hp, hne, rfl⟩
        · rintro (h | ⟨-, -, heq⟩)
          · exact Or.inl h
          · have hv : v = u := by injection heq
            exact Or.inr hv.symm
      | none => simp [hu]
  · rw [if_neg hp]
    simp [hp]

theorem foldl_uids (b64 : Str → Except Unit Str) :
    ∀ (emails : List MailRec) (st : AggState) (u : Int),
      u ∈ (emails.foldl (processEmail b64) st).uids ↔
        u ∈ st.uids ∨ ∃ m ∈ emails, passesChecks b64 m = true ∧
          uniquePairs (extractAlbumArtistPairs m.dom m.body) ≠ [] ∧
          m.uid = some u := by
  intro emails
  induction emails with
  | nil => intro st u; simp
  | cons e rest ih =>
    intro st u
    simp only [List.foldl_cons]
    rw [ih (processEmail b64 st e) u, processEmail_uids]
    constructor
    · rintro ((h | h) | ⟨m, hm, h⟩)
      · exact Or.inl h
      · exact Or.inr ⟨e, List.mem_cons_self e rest, h⟩
      · exact Or.inr ⟨m, List.mem_cons_of_mem e hm, h⟩
    · rintro (h | ⟨m, hm, h⟩)
      · exact Or.inl (Or.inl h)
      · rcases List.mem_cons.mp hm with rfl | hm2
        · exact Or.inl (Or.inr h)
        · exact Or.inr ⟨m, hm2, h⟩

/-- C8 counterexample: the gate is `Number.isInteger(mail.uid)` only - a
zero (non-positive) UID from an email with a non-empty deduplicated
extraction is added to the processed set, contradicting the claimed
positivity requirement. -/
theorem claim_C8_counterexample :
    (0 : Int) ∈ (processEmails (fun _ => (.error () : Except Unit Str))
        [⟨"Pitchfork <newsletter@pitchfork.com>".toList, expectedSubject,
          some 0, 2025, 0,
          .ok ⟨[("Radiohead".toList, "OK Computer".toList)], [], []⟩,
          none⟩]).uids ∧
      ¬((0 : Int) > 0) := by
  exact ⟨by decide, by decide⟩

/-- C8 amended: a UID is in the processed set exactly when some fetched
email passes the sender/subject checks, has a non-empty deduplicated
extraction, and carries that integer UID (`Number.isInteger` admits any
integer; positivity is only enforced later by the archiver); in
particular an email whose deduplicated extraction is empty never
contributes its UID. -/
theorem claim_C8_uid_set_iff (b64 : Str → Except Unit Str)
    (emails : List MailRec) (u : Int) :
    u ∈ (processEmails b64 emails).uids ↔
      ∃ m ∈ emails, passesChecks b64 m = true ∧
        uniquePairs (extractAlbumArtistPairs m.dom m.body) ≠ [] ∧
        m.uid = some u := by
  unfold processEmails
  rw [foldl_uids]
  simp

/-- Witness for the amended C8: a concrete passing email with UID 7 puts
7 into the processed set. -/
theorem claim_C8_uid_set_iff_witness :
    (7 : Int) ∈ (processEmails (fun _ => (.error () : Except Unit Str))
        [⟨"Pitchfork <newsletter@pitchfork.com>".toList, expectedSubject,
          some 7, 2025, 0,
          .ok ⟨[("Radiohead".toList, "OK Computer".toList)], [], []⟩,
          none⟩]).uids :=
  (claim_C8_uid_set_iff (fun _ => (.error () : Except Unit Str)) _ 7).mpr
    ⟨_, List.mem_singleton_self _, by decide, by decide, by decide⟩

/-! ### Month buckets keep one entry per key (C3) -/

theorem hasKey_append (xs ys : List Pair) (k : Str) :
    hasKey (xs ++ ys) k = (hasKey xs k || hasKey ys k) := by
  simp [hasKey, List.any_append]

theorem countKey_uniqueByKey (k : Str) :
    ∀ (l : List Pair) (seen : List Str),
      countKey (uniqueByKey seen l) k =
        if k ∈ seen then 0 else if hasKey l k = true then 1 else 0 := by
  intro l
  induction l with
  | nil =>
    intro seen
    simp only [uniqueByKey, countKey, List.filter_nil, List.length_nil, hasKey,
      List.any_nil]
    split <;> simp
  | cons p rest ih =>
    intro seen
    simp only [uniqueByKey]
    by_cases hmem : pairKey p ∈ seen
    · rw [if_pos hmem, ih]
      by_cases hk : k ∈ seen
      · simp [hk]
      · have hpk : (pairKey p == k) = false := by
          rw [beq_eq_false_iff_ne]
          rintro rfl
          exact hk hmem
        rw [if_neg hk, if_neg hk,
          show hasKey (p :: rest) k = hasKey rest k from by
            simp [hasKey, List.any_cons, hpk]]
    · rw [if_neg hmem]
      have hc : countKey (p :: uniqueByKey (seen ++ [pairKey p]) rest) k =
          (if (pairKey p == k) = true then 1 else 0) +
            countKey (uniqueByKey (seen ++ [pairKey p]) rest) k := by
        simp only [countKey, List.filter_cons]
        split
        · simp only [List.length_cons]; omega
        · simp
      rw [hc, ih]
      by_cases hpk : pairKey p = k
      · subst hpk
        rw [if_pos (by simp), if_pos (by simp [List.mem_append]), if_neg hmem,
          if_pos (by simp [hasKey, List.any_cons])]
      · have hbeq : (pairKey p == k) = false := by
          rw [beq_eq_false_iff_ne]; exact hpk
        rw [if_neg (by simp [hbeq]),
          show hasKey (p :: rest) k = hasKey rest k from by
            simp [hasKey, List.any_cons, hbeq]]
        have hiff : (k ∈ seen ++ [pairKey p]) ↔ k ∈ seen := by
          simp only [List.mem_append, List.mem_singleton]
          constructor
          · rintro (h | h)
            · exact h
            · exact absurd h.symm hpk
          · exact Or.inl
        rw [if_congr hiff rfl rfl]
        simp

theorem countKey_uniquePairs (l : List Pair) (k : Str) :
    countKey (uniquePairs l) k = if hasKey l k = true then 1 else 0 := by
  unfold uniquePairs
  rw [countKey_uniqueByKey]
  simp

theorem hasKey_iff_countKey (q : List Pair) (k : Str) :
    hasKey q k = true ↔ countKey q k ≠ 0 := by
  simp only [hasKey, countKey, List.any_eq_true, ne_eq, List.length_eq_zero,
    List.filter_eq_nil_iff]
  constructor
  · rintro ⟨p, hp, hk⟩ hall
    exact (hall p hp) hk
  · intro h
    by_contra hn
    push_neg at hn
    exact h (fun p hp => fun hk => hn p hp hk)

theorem hasKey_uniquePairs (l : List Pair) (k : Str) :
    hasKey (uniquePairs l) k = hasKey l k := by
  cases hl : hasKey l k with
  | true =>
    rw [(hasKey_iff_countKey _ _), countKey_uniquePairs, hl]
    simp
  | false =>
    cases hu : hasKey (uniquePairs l) k with
    | false => rfl
    | true =>
      have := (hasKey_iff_countKey _ _).mp hu
      rw [countKey_uniquePairs, hl] at this
      simp at this

theorem uniquePairs_ne_nil {l : List Pair} {k : Str}
    (h : hasKey l k = true) : uniquePairs l ≠ [] := by
  intro hnil
  have := countKey_uniquePairs l k
  rw [hnil, h] at this
  simp [countKey] at this

theorem bucketVal_updateBucket (m m2 : Str) (ps : List Pair) :
    ∀ bs : List (Str × List Pair),
      bucketVal (updateBucket bs m2 ps) m =
        if m2 = m then bucketVal bs m ++ ps else bucketVal bs m := by
  intro bs
  induction bs with
  | nil =>
    simp only [updateBucket, bucketVal]
    by_cases h : m2 = m
    · rw [if_pos h, if_pos h]; simp
    · rw [if_neg h, if_neg h]
  | cons kv rest ih =>
    obtain ⟨key, v⟩ := kv
    simp only [updateBucket]
    by_cases hk : key = m2
    · rw [if_pos hk]
      simp only [bucketVal]
      by_cases hm : key = m
      · rw [if_pos hm, if_pos hm, if_pos (hk ▸ hm)]
      · rw [if_neg hm, if_neg hm, if_neg (fun h => hm (hk.trans h))]
    · rw [if_neg hk]
      simp only [bucketVal]
      by_cases hm : key = m
      · rw [if_pos hm, if_pos hm, if_neg (fun h => hk (hm.trans h.symm))]
      · rw [if_neg hm, if_neg hm, ih]

theorem processEmail_bucket_mono (b64 : Str → Except Unit Str)
    (st : AggState) (m : MailRec) (M k : Str)
    (h : hasKey (bucketVal st.buckets M) k = true) :
    hasKey (bucketVal (processEmail b64 st m).buckets M) k = true := by
  simp only [processEmail]
  split
  · split
    · exact h
    · have hb : bucketVal (updateBucket st.buckets
          (formatMonthYYYYMM m.year m.monthIdx)
          (uniquePairs (extractAlbumArtistPairs m.dom m.body))) M =
          if formatMonthYYYYMM m.year m.monthIdx = M then
            bucketVal st.buckets M ++
              uniquePairs (extractAlbumArtistPairs m.dom m.body)
          else bucketVal st.buckets M := bucketVal_updateBucket _ _ _ _
      cases hu : m.uid with
      | some v =>
        simp only [hb]
        split
        · rw [hasKey_append, h]; rfl
        · exact h
      | none =>
        simp only [hb]
        split
        · rw [hasKey_append, h]; rfl
        · exact h
  · exact h

theorem processEmail_bucket_new (b64 : Str → Except Unit Str)
    (st : AggState) (m : MailRec) (k : Str)
    (hp : passesChecks b64 m = true)
    (hk : hasKey (extractAlbumArtistPairs m.dom m.body) k = true) :
    hasKey (bucketVal (processEmail b64 st m).buckets
      (formatMonthYYYYMM m.year m.monthIdx)) k = true := by
  simp only [processEmail]
  rw [if_pos hp]
  have hku : hasKey (uniquePairs (extractAlbumArtistPairs m.dom m.body)) k
      = true := by rw [hasKey_uniquePairs]; exact hk
  rw [if_neg (by
    intro he
    exact uniquePairs_ne_nil hk (by simpa [List.isEmpty_eq_true] using he))]
  have hb := bucketVal_updateBucket (formatMonthYYYYMM m.year m.monthIdx)
    (formatMonthYYYYMM m.year m.monthIdx)
    (uniquePairs (extractAlbumArtistPairs m.dom m.body)) st.buckets
  cases hu : m.uid with
  | some v =>
    rw [hb, if_pos rfl, hasKey_append, hku]
    simp
  | none =>
    rw [hb, if_pos rfl, hasKey_append, hku]
    simp

theorem foldl_bucket_mono (b64 : Str → Except Unit Str) (M k : Str) :
    ∀ (emails : List MailRec) (st : AggState),
      hasKey (bucketVal st.buckets M) k = true →
      hasKey (bucketVal (emails.foldl (processEmail b64) st).buckets M) k
        = true := by
  intro emails
  induction emails with
  | nil => intro st h; simpa using h
  | cons e rest ih =>
    intro st h
    simp only [List.foldl_cons]
    exact ih _ (processEmail_bucket_mono b64 st e M k h)

/-- C3: whenever every email of a run passes the sender/subject checks,
falls in the same calendar month, and contains the given case-insensitive
artist-album key, the re-deduplicated month bucket handed to the Catalog
Resolver holds exactly one entry with that key. -/
theorem claim_C3_month_bucket_single_entry (b64 : Str → Except Unit Str)
    (emails : List MailRec) (y mo : Nat) (k : Str)
    (hne : emails ≠ [])
    (hall : ∀ m ∈ emails, passesChecks b64 m = true ∧ m.year = y ∧
      m.monthIdx = mo ∧
      hasKey (extractAlbumArtistPairs m.dom m.body) k = true) :
    countKey (resolverBucket (processEmails b64 emails)
      (formatMonthYYYYMM y mo)) k = 1 := by
  unfold resolverBucket
  rw [countKey_uniquePairs]
  rw [if_pos]
  cases emails with
  | nil => exact absurd rfl hne
  | cons e rest =>
    unfold processEmails
    simp only [List.foldl_cons]
    obtain ⟨hp, hy, hmo, hk⟩ := hall e (List.mem_cons_self e rest)
    apply foldl_bucket_mono
    have := processEmail_bucket_new b64 ⟨[], []⟩ e k hp hk
    rw [hy, hmo] at this
    exact this

/-- Witness for C3: two same-month emails with case-varying copies of the
same pair leave exactly one bucket entry for that key. -/
theorem claim_C3_month_bucket_single_entry_witness :
    countKey (resolverBucket (processEmails
        (fun _ => (.error () : Except Unit Str))
        [⟨"newsletter@pitchfork.com".toList, expectedSubject, some 1, 2025, 0,
          .ok ⟨[("Radiohead".toList, "OK Computer".toList)], [], []⟩, none⟩,
         ⟨"News <NEWSLETTER@PITCHFORK.COM>".toList, expectedSubject, some 2,
          2025, 0,
          .ok ⟨[("RADIOHEAD".toList, "ok computer".toList)], [], []⟩, none⟩])
      (formatMonthYYYYMM 2025 0)) "radiohead::ok computer".toList = 1 :=
  claim_C3_month_bucket_single_entry (fun _ => (.error () : Except Unit Str))
    _ 2025 0 "radiohead::ok computer".toList (List.cons_ne_nil _ _)
    (by
      intro m hm
      rcases List.mem_cons.mp hm with rfl | hm2
      · exact ⟨by decide, rfl, rfl, by decide⟩
      · rcases List.mem_cons.mp hm2 with rfl | hm3
        · exact ⟨by decide, rfl, rfl, by decide⟩
        · exact absurd hm3 (List.not_mem_nil m))

end Pitch2Play
